import Mathlib

set_option maxRecDepth 8000

/-!
Verification of the playlist codec and edit-session logic of the audio
playlist manager (src/components/playlist-manager.tsx).

Strings are modelled as `List Char` (the `.data` of a Lean `String`), and
JavaScript behaviour is embedded faithfully:

* `String.prototype.split`, `trim`, `startsWith`, `replace` (first
  occurrence for string patterns, every occurrence for `/…/g` patterns),
  truthiness of strings (empty string is falsy) are modelled directly;
* `encodeURIComponent` / `decodeURIComponent` are modelled at the byte
  level, including UTF-8 encoding of non-ASCII code points and the
  `URIError` thrown on malformed percent-escapes, which is modelled by
  `Option` (`none` = the call throws);
* the regular expressions of the source
  (`/Container=<([^>]+)>(.+)/`, `/\.[^\/.]+$/`, `/\+/g`, `/%20/g`)
  are modelled by explicit scanning functions, with the JavaScript
  semantics that `.` does not match a line terminator.
-/

/-- Characters removed by JavaScript `String.prototype.trim` (ECMA WhiteSpace
and LineTerminator code points). -/
def jsWhite (c : Char) : Bool :=
  ([9, 10, 11, 12, 13, 32, 0xA0, 0x1680, 0x2028, 0x2029, 0x202F, 0x205F,
    0x3000, 0xFEFF] : List Nat).contains c.toNat
  || (decide (0x2000 ≤ c.toNat) && decide (c.toNat ≤ 0x200A))

/-- JavaScript `s.trim()`. -/
def trimLC (l : List Char) : List Char :=
  ((l.dropWhile jsWhite).reverse.dropWhile jsWhite).reverse

/-- JavaScript `s.split(sep)` for a one-character separator: every occurrence
splits, empty segments are kept. -/
def splitCh (sep : Char) : List Char → List (List Char)
  | [] => [[]]
  | c :: t =>
    match splitCh sep t with
    | [] => [[]]
    | s :: rest => if c = sep then [] :: s :: rest else (c :: s) :: rest

/-- Scanner for `s.replace(/%20/g, "+")`; the second argument is the number
of already-consumed characters of a match still to be skipped. -/
def replacePct20Go : List Char → Nat → List Char
  | [], _ => []
  | _ :: t, n + 1 => replacePct20Go t n
  | c :: t, 0 =>
    if c = '%' ∧ t.take 2 = ['2', '0'] then '+' :: replacePct20Go t 2
    else c :: replacePct20Go t 0

/-- JavaScript `s.replace(/%20/g, "+")`: every occurrence of `%20`,
left to right, becomes `+`. -/
def replacePct20 (l : List Char) : List Char :=
  replacePct20Go l 0

/-- JavaScript `s.replace(/\+/g, " ")`. -/
def plusToSpace (l : List Char) : List Char :=
  l.map (fun c => if c = '+' then ' ' else c)

/-- JavaScript `s.replace(pat, rep)` with a plain-string pattern: only the
first occurrence is replaced. -/
def replaceFirstOcc (pat rep : List Char) : List Char → List Char
  | [] => []
  | c :: t =>
    if pat.isPrefixOf (c :: t) then rep ++ (c :: t).drop pat.length
    else c :: replaceFirstOcc pat rep t

/-- Characters matched by `.` in a JavaScript regular expression without the
`s` flag: everything except the four line terminators. -/
def jsDotChar (c : Char) : Bool :=
  !(c = '\n' || c = '\r' || c.toNat = 0x2028 || c.toNat = 0x2029)

/-- Upper-case hexadecimal digit, as produced by `encodeURIComponent`. -/
def hexDig : Nat → Char
  | 0 => '0' | 1 => '1' | 2 => '2' | 3 => '3' | 4 => '4'
  | 5 => '5' | 6 => '6' | 7 => '7' | 8 => '8' | 9 => '9'
  | 10 => 'A' | 11 => 'B' | 12 => 'C' | 13 => 'D' | 14 => 'E' | 15 => 'F'
  | _ => '0'

/-- Value of a hexadecimal digit; `decodeURIComponent` accepts both cases. -/
def hexVal? (c : Char) : Option Nat :=
  if 48 ≤ c.toNat ∧ c.toNat ≤ 57 then some (c.toNat - 48)
  else if 65 ≤ c.toNat ∧ c.toNat ≤ 70 then some (c.toNat - 55)
  else if 97 ≤ c.toNat ∧ c.toNat ≤ 102 then some (c.toNat - 87)
  else none

/-- A percent-escape `%XY` for one byte. -/
def escapeByte (b : Nat) : List Char :=
  ['%', hexDig (b / 16), hexDig (b % 16)]

/-- UTF-8 byte sequence of a code point. -/
def utf8Bytes (n : Nat) : List Nat :=
  if n < 0x80 then [n]
  else if n < 0x800 then [0xC0 + n / 64, 0x80 + n % 64]
  else if n < 0x10000 then
    [0xE0 + n / 4096, 0x80 + (n / 64) % 64, 0x80 + n % 64]
  else
    [0xF0 + n / 0x40000, 0x80 + (n / 4096) % 64, 0x80 + (n / 64) % 64,
     0x80 + n % 64]

/-- The `uriUnescaped` set of `encodeURIComponent`: ASCII letters, digits,
and `- _ . ! ~ * ' ( )`. -/
def unreservedChar (c : Char) : Bool :=
  (decide (65 ≤ c.toNat) && decide (c.toNat ≤ 90))
  || (decide (97 ≤ c.toNat) && decide (c.toNat ≤ 122))
  || (decide (48 ≤ c.toNat) && decide (c.toNat ≤ 57))
  || ([45, 95, 46, 33, 126, 42, 39, 40, 41] : List Nat).contains c.toNat

/-- One character of `encodeURIComponent` output. -/
def encChar (c : Char) : List Char :=
  if unreservedChar c then [c] else (utf8Bytes c.toNat).flatMap escapeByte

/-- JavaScript `encodeURIComponent`. -/
def encodeURIComponent (l : List Char) : List Char :=
  l.flatMap encChar

/-- Intermediate tokens of `decodeURIComponent`: a literal character, or one
byte coming from a percent-escape. -/
inductive UriTok where
  | raw (c : Char)
  | byte (b : Nat)
deriving DecidableEq

/-- First phase of `decodeURIComponent`: turn every `%XY` into a byte token;
`none` models the `URIError` thrown on a `%` not followed by two hex
digits. -/
def percentPhase : List Char → Option (List UriTok)
  | [] => some []
  | c :: t =>
    if c = '%' then
      match t with
      | c1 :: c2 :: t' =>
        match hexVal? c1, hexVal? c2 with
        | some hi, some lo =>
          (percentPhase t').map (fun r => UriTok.byte (16 * hi + lo) :: r)
        | _, _ => none
      | _ => none
    else (percentPhase t).map (fun r => UriTok.raw c :: r)

/-- Is `b` a UTF-8 continuation byte `10xxxxxx`? -/
def isContByte (b : Nat) : Bool :=
  decide (0x80 ≤ b) && decide (b < 0xC0)

/-- Second phase of `decodeURIComponent`, as a one-token-at-a-time scanner:
`need` is the number of continuation bytes still expected for the code point
assembled so far in `cp` (`need = 0` is the ground state), and `lo` is the
smallest code point representable at the chosen sequence length (the overlong
check). UTF-8 is validated exactly as the ECMA `Decode` algorithm does:
continuation bytes must themselves come from escapes; overlong encodings,
surrogates, values beyond `0x10FFFF`, stray or impossible lead bytes all
throw, modelled by `none`. -/
def utf8AsmGo : Nat → Nat → Nat → List UriTok → Option (List Char)
  | 0, _, _, [] => some []
  | 0, _, _, UriTok.raw c :: t => (utf8AsmGo 0 0 0 t).map (fun r => c :: r)
  | 0, _, _, UriTok.byte b :: t =>
    if b < 0x80 then (utf8AsmGo 0 0 0 t).map (fun r => Char.ofNat b :: r)
    else if b < 0xC0 then none
    else if b < 0xE0 then utf8AsmGo 1 (b - 0xC0) 0x80 t
    else if b < 0xF0 then utf8AsmGo 2 (b - 0xE0) 0x800 t
    else if b < 0xF8 then utf8AsmGo 3 (b - 0xF0) 0x10000 t
    else none
  | 1, cp, lo, UriTok.byte b :: t =>
    if isContByte b then
      if lo ≤ cp * 64 + (b - 0x80) ∧ cp * 64 + (b - 0x80) ≤ 0x10FFFF ∧
          (cp * 64 + (b - 0x80) < 0xD800 ∨ 0xDFFF < cp * 64 + (b - 0x80)) then
        (utf8AsmGo 0 0 0 t).map (fun r => Char.ofNat (cp * 64 + (b - 0x80)) :: r)
      else none
    else none
  | n + 2, cp, lo, UriTok.byte b :: t =>
    if isContByte b then utf8AsmGo (n + 1) (cp * 64 + (b - 0x80)) lo t else none
  | _ + 1, _, _, _ => none

/-- Second phase of `decodeURIComponent`: assemble the escape bytes into code
points, starting in the ground state. -/
def utf8Asm (toks : List UriTok) : Option (List Char) :=
  utf8AsmGo 0 0 0 toks

/-- JavaScript `decodeURIComponent`; `none` models a thrown `URIError`. -/
def decodeURIComponent (l : List Char) : Option (List Char) :=
  (percentPhase l).bind utf8Asm

/-- `removeFileExtension` from the source: `filename.replace(/\.[^\/.]+$/, "")`. -/
def removeFileExtension (l : List Char) : List Char :=
  let r := l.reverse
  let ext := r.takeWhile (fun c => !(c = '.' || c = '/'))
  if ext ≠ [] ∧ (r.drop ext.length).head? = some '.' then
    (r.drop (ext.length + 1)).reverse
  else l

/-- `p.split("\\").pop() || p.split("/").pop() || p` from `parsePlaylistContent`:
the last backslash segment if non-empty, else the last slash segment if
non-empty, else `p` itself. -/
def fullFilenameOf (p : List Char) : List Char :=
  let a := (splitCh '\\' p).getLastD []
  if a ≠ [] then a
  else
    let b := (splitCh '/' p).getLastD []
    if b ≠ [] then b else p

/-- One entry of `playlistItems`: `{ path, filename }`. -/
structure TrackItem where
  path : List Char
  filename : List Char
deriving DecidableEq

/-- The decoded playlist document: container name plus ordered items. -/
structure PlaylistDoc where
  containerName : List Char
  items : List TrackItem
deriving DecidableEq

/-- The item pushed by `parsePlaylistContent` for one raw path token `p`:
`{ path: p.trim(), filename: removeFileExtension(fullFilename) }`. -/
def mkTrackItem (p : List Char) : TrackItem :=
  ⟨trimLC p, removeFileExtension (fullFilenameOf p)⟩

/-- One attempt of `/Container=<([^>]+)>(.+)/` at the current position:
`[^>]+` is a non-empty run of non-`>` characters ending at the first `>`,
and `.+` is a non-empty run of non-line-terminator characters. -/
def matchContainerAt (l : List Char) : Option (List Char × List Char) :=
  if ("Container=<".data).isPrefixOf l then
    let after := l.drop 11
    let nm := after.takeWhile (fun c => !(c = '>'))
    let rest := (after.drop (nm.length + 1)).takeWhile jsDotChar
    if nm ≠ [] ∧ nm.length < after.length ∧ rest ≠ [] then some (nm, rest)
    else none
  else none

/-- `line.match(/Container=<([^>]+)>(.+)/)`: the leftmost position where the
pattern matches, returning (`match[1]`, `match[2]`). -/
def findContainerMatch : List Char → Option (List Char × List Char)
  | [] => none
  | c :: t =>
    match matchContainerAt (c :: t) with
    | some r => some r
    | none => findContainerMatch t

/-- The `paths.forEach` loop body of `parsePlaylistContent`: split `match[2]`
on `|`, keep the tokens that are non-blank after trimming, and build items. -/
def parsePaths (rest : List Char) : List TrackItem :=
  (splitCh '|' rest).filterMap
    (fun p => if trimLC p = [] then none else some (mkTrackItem p))

/-- The line loop of `parsePlaylistContent`, accumulating the container name
and the items; `none` models the `URIError` escaping from
`decodeURIComponent`. -/
def parseLines : List (List Char) → List Char × List TrackItem →
    Option (List Char × List TrackItem)
  | [], st => some st
  | l :: ls, (nm, its) =>
    if ("#EXTM3U".data).isPrefixOf l then parseLines ls (nm, its)
    else if ("Container=".data).isPrefixOf l then
      match findContainerMatch l with
      | none => parseLines ls (nm, its)
      | some (rawName, rawPaths) =>
        match decodeURIComponent (plusToSpace rawName) with
        | none => none
        | some nm' => parseLines ls (nm', its ++ parsePaths rawPaths)
    else parseLines ls (nm, its)

/-- `parsePlaylistContent` from the source; `none` models a thrown
`URIError`. -/
def parsePlaylistContent (content : List Char) : Option PlaylistDoc :=
  (parseLines ((splitCh '\n' content).filter (fun l => !(trimLC l).isEmpty))
      ([], [])).map
    (fun st => ⟨st.1, st.2⟩)

/-- JavaScript `array.join(sep)`. -/
def joinSep (sep : List Char) : List (List Char) → List Char
  | [] => []
  | [x] => x
  | x :: y :: rest => x ++ sep ++ joinSep sep (y :: rest)

/-- `generatePlaylistContent` from the source. -/
def generatePlaylistContent (d : PlaylistDoc) : List Char :=
  if d.items = [] then ("#EXTM3U\n").data
  else
    ("#EXTM3U\nContainer=<".data ++
      replacePct20 (encodeURIComponent
        (if d.containerName = [] then ("Not predefined").data else d.containerName))) ++
      ('>' :: joinSep ['|'] (d.items.map (fun it => it.path))) ++ ['\n']

/-- A storage file; only the name matters to the modelled operations. -/
structure GoogleDriveFile where
  name : List Char
deriving DecidableEq

/-- An audio directory configuration. -/
structure AudioDirectory where
  name : List Char
  driveId : List Char
  localPath : List Char
deriving DecidableEq

/-- `buildPathForFile` from the source: substitute the file name for the
first occurrence of the template token, or use the hard-coded fallback. -/
def buildPathForFile (file : GoogleDriveFile) (directory : Option AudioDirectory) :
    List Char :=
  match directory with
  | some d => replaceFirstOcc ("{audio_filename}".data) file.name d.localPath
  | none => "T:\\My Drive\\Audio\\".data ++ file.name

/-- `addFileToPlaylist` from the source, as a function of the current items;
`selected` models whether a playlist is selected (if not, only a toast is
shown and the items are unchanged). -/
def addFileToPlaylist (selected : Bool) (items : List TrackItem)
    (file : GoogleDriveFile) (directory : Option AudioDirectory) : List TrackItem :=
  if !selected then items
  else
    let p := buildPathForFile file directory
    if items.any (fun it => it.path = p) then items
    else items ++ [⟨p, removeFileExtension file.name⟩]

/-- `removeFileFromPlaylist` from the source. -/
def removeFileFromPlaylist (items : List TrackItem) (file : GoogleDriveFile)
    (directory : Option AudioDirectory) : List TrackItem :=
  items.filter (fun it => !(it.path = buildPathForFile file directory))

/-- The reorder logic of `handleDrop`: if the indices differ, remove the
dragged item and splice it back in at the drop index of the remaining list
(JavaScript `splice(dropIndex, 0, item)` appends when the index exceeds the
length, which `take`/`drop` reproduce). The source reads
`newItems[dragIndex]` before splicing; an out-of-range `dragIndex` is a
caller contract violation and is modelled as a no-op. -/
def handleDrop (items : List TrackItem) (dragIndex dropIndex : Nat) :
    List TrackItem :=
  if dragIndex = dropIndex then items
  else
    match items[dragIndex]? with
    | none => items
    | some draggedItem =>
      let removed := items.eraseIdx dragIndex
      removed.take dropIndex ++ draggedItem :: removed.drop dropIndex

/-- The component state touched by load/save/reset and the edit operations. -/
structure SessionState where
  originalContent : List Char
  containerName : List Char
  playlistItems : List TrackItem
  saveError : Option (List Char)
  isSaving : Bool
deriving DecidableEq

/-- The playlist-loading effect: `setOriginalContent(content)` runs before
`parsePlaylistContent(content)`, and a thrown `URIError` is caught after the
original content was already stored, leaving the previous document in
place. -/
def loadPlaylistContent (s : SessionState) (content : List Char) : SessionState :=
  match parsePlaylistContent content with
  | some d =>
    { s with originalContent := content, containerName := d.containerName,
             playlistItems := d.items }
  | none => { s with originalContent := content }

/-- `resetPlaylist` from the source: re-parse the stored original text; both
state setters run after the parse, so a thrown `URIError` leaves the state
unchanged. -/
def resetPlaylist (s : SessionState) : SessionState :=
  match parsePlaylistContent s.originalContent with
  | some d =>
    { s with containerName := d.containerName, playlistItems := d.items }
  | none => s

/-- JavaScript `hay.includes(needle)`. -/
def containsSub (needle : List Char) : List Char → Bool
  | [] => needle.isEmpty
  | c :: t => needle.isPrefixOf (c :: t) || containsSub needle t

/-- The authentication-error test of the catch blocks. -/
def isAuthErrorMsg (m : List Char) : Bool :=
  containsSub ("Authentication expired".data) m
  || containsSub ("Not authenticated".data) m

/-- Outcome of the remote `updateFile` call made by `savePlaylist`. -/
inductive SaveResult where
  | ok
  | err (msg : List Char)

/-- What `savePlaylist` surfaces to its caller. -/
inductive SaveSignal where
  | saved
  | authErrorTriggered
  | errorShown
  | noPlaylist
deriving DecidableEq

/-- The document held in a session state. -/
def sessionDoc (s : SessionState) : PlaylistDoc :=
  ⟨s.containerName, s.playlistItems⟩

/-- `savePlaylist` from the source: generate the content, attempt the remote
update, and on success store the generated text as the new original; on
failure either trigger re-authentication (auth messages) or record the error
message in `saveError`. The document fields are never written. -/
def savePlaylist (selected : Bool) (s : SessionState) (result : SaveResult) :
    SessionState × SaveSignal :=
  if !selected then (s, SaveSignal.noPlaylist)
  else
    match result with
    | SaveResult.ok =>
      ({ s with originalContent := generatePlaylistContent (sessionDoc s),
                saveError := none, isSaving := false }, SaveSignal.saved)
    | SaveResult.err m =>
      if isAuthErrorMsg m then
        ({ s with saveError := none, isSaving := false },
         SaveSignal.authErrorTriggered)
      else
        ({ s with saveError := some m, isSaving := false },
         SaveSignal.errorShown)

/-- An in-memory edit operation of the session. -/
inductive EditOp where
  | addFile (file : GoogleDriveFile) (directory : Option AudioDirectory)
  | removeFile (file : GoogleDriveFile) (directory : Option AudioDirectory)
  | reorder (dragIndex dropIndex : Nat)

/-- Apply one edit operation to the session state; all three only touch
`playlistItems`. -/
def applyEditOp (s : SessionState) : EditOp → SessionState
  | EditOp.addFile f d =>
    { s with playlistItems := addFileToPlaylist true s.playlistItems f d }
  | EditOp.removeFile f d =>
    { s with playlistItems := removeFileFromPlaylist s.playlistItems f d }
  | EditOp.reorder i j =>
    { s with playlistItems := handleDrop s.playlistItems i j }

/-- Apply a sequence of edit operations. -/
def applyEditOps (s : SessionState) (ops : List EditOp) : SessionState :=
  ops.foldl applyEditOp s

/-- A line is "safe" when, if it is a container line with a regex match, the
matched name survives `decodeURIComponent` after `+` replacement. -/
def lineSafe (l : List Char) : Bool :=
  if ("Container=".data).isPrefixOf l then
    match findContainerMatch l with
    | some (rawName, _) => (decodeURIComponent (plusToSpace rawName)).isSome
    | none => true
  else true

/-- Modelled from the spec: the display name described by the specification,
"the last path segment (splitting on both `\` and `/`, preferring whichever
produces a non-empty final token) with the trailing extension (the substring
from the last `.` to end, if any, excluding a leading-dot-only filename)
stripped". A leading-dot-only filename (one whose only `.` is its first
character, such as `.hidden`) keeps its name. -/
def spec_displayName (p : List Char) : List Char :=
  let backTok := (splitCh '\\' p).getLastD []
  let fwdTok := (splitCh '/' p).getLastD []
  let seg := if backTok ≠ [] then backTok else if fwdTok ≠ [] then fwdTok else p
  let revSeg := seg.reverse
  let afterDot := revSeg.takeWhile (fun c => !(c = '.'))
  if afterDot.length = seg.length then seg
  else if afterDot.length + 1 = seg.length then seg
  else (revSeg.drop (afterDot.length + 1)).reverse

/-! ## Basic lemmas about the string helpers -/

theorem splitCh_ne_nil (sep : Char) (l : List Char) : splitCh sep l ≠ [] := by
  induction l with
  | nil => simp [splitCh]
  | cons c t ih =>
    cases h : splitCh sep t with
    | nil => exact absurd h ih
    | cons s rest =>
      simp only [splitCh, h]
      split <;> simp

theorem splitCh_mem {sep : Char} {l s : List Char} (hs : s ∈ splitCh sep l)
    {c : Char} (hc : c ∈ s) : c ∈ l ∧ ¬c = sep := by
  induction l generalizing s with
  | nil =>
    simp [splitCh] at hs
    subst hs
    simp at hc
  | cons a t ih =>
    cases h : splitCh sep t with
    | nil => exact absurd h (splitCh_ne_nil sep t)
    | cons s0 rest =>
      simp only [splitCh, h] at hs
      by_cases ha : a = sep
      · rw [if_pos ha] at hs
        rcases List.mem_cons.mp hs with rfl | hs'
        · simp at hc
        · have := ih (s := s) (by rw [h]; exact hs') hc
          exact ⟨List.mem_cons_of_mem a this.1, this.2⟩
      · rw [if_neg ha] at hs
        rcases List.mem_cons.mp hs with rfl | hs'
        · rcases List.mem_cons.mp hc with rfl | hc'
          · exact ⟨List.mem_cons_self c t, ha⟩
          · have := ih (s := s0) (by rw [h]; exact List.mem_cons_self s0 rest) hc'
            exact ⟨List.mem_cons_of_mem a this.1, this.2⟩
        · have := ih (s := s) (by rw [h]; exact List.mem_cons_of_mem s0 hs') hc
          exact ⟨List.mem_cons_of_mem a this.1, this.2⟩

theorem splitCh_of_no_sep {sep : Char} {l : List Char} (h : ∀ c ∈ l, ¬c = sep) :
    splitCh sep l = [l] := by
  induction l with
  | nil => simp [splitCh]
  | cons a t ih =>
    have ht := ih (fun c hc => h c (List.mem_cons_of_mem a hc))
    have ha : ¬a = sep := h a (List.mem_cons_self a t)
    simp [splitCh, ht, ha]

theorem splitCh_append_cons {sep : Char} {a : List Char}
    (h : ∀ c ∈ a, ¬c = sep) (b : List Char) :
    splitCh sep (a ++ sep :: b) = a :: splitCh sep b := by
  induction a with
  | nil =>
    cases hb : splitCh sep b with
    | nil => exact absurd hb (splitCh_ne_nil sep b)
    | cons s rest => simp [splitCh, hb]
  | cons x xs ih =>
    have hx : ¬x = sep := h x (List.mem_cons_self x xs)
    have ih' := ih (fun c hc => h c (List.mem_cons_of_mem x hc))
    cases hb : splitCh sep b with
    | nil => exact absurd hb (splitCh_ne_nil sep b)
    | cons s rest =>
      rw [hb] at ih'
      simp [splitCh, ih', hx, hb]

theorem dropWhile_head_not {p : Char → Bool} {l : List Char} {c : Char}
    (hc : (l.dropWhile p).head? = some c) : p c = false := by
  induction l with
  | nil => simp [List.dropWhile] at hc
  | cons a t ih =>
    rw [List.dropWhile_cons] at hc
    split at hc
    · exact ih hc
    · rename_i hpa
      simp at hc
      subst hc
      simpa using hpa

theorem dropWhile_idem (p : Char → Bool) (l : List Char) :
    (l.dropWhile p).dropWhile p = l.dropWhile p := by
  cases h : l.dropWhile p with
  | nil => simp
  | cons c t =>
    have hc : p c = false := dropWhile_head_not (by rw [h]; rfl)
    rw [List.dropWhile_cons, hc]
    simp

theorem mem_dropWhile_of_not {p : Char → Bool} {l : List Char} {c : Char}
    (hc : c ∈ l) (hp : p c = false) : c ∈ l.dropWhile p := by
  induction l with
  | nil => simp at hc
  | cons a t ih =>
    rw [List.dropWhile_cons]
    split
    · rcases List.mem_cons.mp hc with rfl | hc'
      · rename_i hpa; rw [hp] at hpa; cases hpa
      · exact ih hc'
    · exact hc

theorem trimLC_pre (l : List Char) : trimLC l <+: l.dropWhile jsWhite := by
  unfold trimLC
  have hsuf := List.dropWhile_suffix (l := (l.dropWhile jsWhite).reverse) jsWhite
  rw [← List.reverse_reverse (l.dropWhile jsWhite)]
  exact List.reverse_prefix.mpr (by simpa using hsuf)

theorem mem_trimLC {l : List Char} {c : Char} (hc : c ∈ trimLC l) : c ∈ l :=
  (List.dropWhile_suffix jsWhite).subset (( trimLC_pre l).subset hc)

theorem trimLC_head_not {l : List Char} {c : Char} {r : List Char}
    (h : trimLC l = c :: r) : jsWhite c = false := by
  have hpre := trimLC_pre l
  rw [h] at hpre
  obtain ⟨t, ht⟩ := hpre
  exact dropWhile_head_not (l := l) (by rw [← ht]; rfl)

theorem trimLC_idem (l : List Char) : trimLC (trimLC l) = trimLC l := by
  have h1 : (trimLC l).dropWhile jsWhite = trimLC l := by
    cases h : trimLC l with
    | nil => simp
    | cons c r =>
      rw [List.dropWhile_cons, trimLC_head_not h]
      simp
  have h2 : (trimLC l).reverse.dropWhile jsWhite = (trimLC l).reverse := by
    have hr : (trimLC l).reverse = ((l.dropWhile jsWhite).reverse).dropWhile jsWhite := by
      unfold trimLC
      rw [List.reverse_reverse]
    rw [hr, dropWhile_idem]
  show (((trimLC l).dropWhile jsWhite).reverse.dropWhile jsWhite).reverse = trimLC l
  rw [h1, h2, List.reverse_reverse]

theorem trimLC_ne_nil {l : List Char} {c : Char} (hc : c ∈ l)
    (hw : jsWhite c = false) : trimLC l ≠ [] := by
  unfold trimLC
  intro h
  have h1 : c ∈ l.dropWhile jsWhite := mem_dropWhile_of_not hc hw
  have h2 : c ∈ (l.dropWhile jsWhite).reverse.dropWhile jsWhite :=
    mem_dropWhile_of_not (by simpa using h1) hw
  rw [List.reverse_eq_nil_iff] at h
  rw [h] at h2
  simp at h2

theorem joinSep_ne_nil {sep : List Char} {x : List Char} (hx : x ≠ [])
    (xs : List (List Char)) : joinSep sep (x :: xs) ≠ [] := by
  cases xs with
  | nil => exact hx
  | cons y ys =>
    show x ++ sep ++ joinSep sep (y :: ys) ≠ []
    simp [hx]

theorem mem_joinSep {sep : List Char} {parts : List (List Char)} {c : Char}
    (hc : c ∈ joinSep sep parts) : c ∈ sep ∨ ∃ p ∈ parts, c ∈ p := by
  induction parts with
  | nil => simp [joinSep] at hc
  | cons x xs ih =>
    cases xs with
    | nil =>
      right
      exact ⟨x, List.mem_cons_self x [], hc⟩
    | cons y ys =>
      have hc' : c ∈ x ++ sep ++ joinSep sep (y :: ys) := hc
      rcases List.mem_append.mp hc' with h1 | h2
      · rcases List.mem_append.mp h1 with hx | hs
        · exact Or.inr ⟨x, List.mem_cons_self x (y :: ys), hx⟩
        · exact Or.inl hs
      · rcases ih h2 with hs | ⟨p, hp, hcp⟩
        · exact Or.inl hs
        · exact Or.inr ⟨p, List.mem_cons_of_mem x hp, hcp⟩

theorem splitCh_joinSep {sep : Char} {parts : List (List Char)}
    (hne : parts ≠ []) (h : ∀ p ∈ parts, ∀ c ∈ p, ¬c = sep) :
    splitCh sep (joinSep [sep] parts) = parts := by
  induction parts with
  | nil => exact absurd rfl hne
  | cons x xs ih =>
    cases xs with
    | nil => exact splitCh_of_no_sep (h x (List.mem_cons_self x []))
    | cons y ys =>
      have ih' := ih (by simp) (fun p hp => h p (List.mem_cons_of_mem x hp))
      show splitCh sep (x ++ [sep] ++ joinSep [sep] (y :: ys)) = x :: y :: ys
      rw [List.append_assoc, List.singleton_append,
        splitCh_append_cons (h x (List.mem_cons_self x (y :: ys))), ih']

theorem takeWhile_append_stop {p : Char → Bool} {a : List Char}
    (ha : ∀ c ∈ a, p c = true) {x : Char} (hx : p x = false) (b : List Char) :
    (a ++ x :: b).takeWhile p = a := by
  induction a with
  | nil => simp [List.takeWhile_cons, hx]
  | cons c t ih =>
    have hc : p c = true := ha c (List.mem_cons_self c t)
    rw [List.cons_append, List.takeWhile_cons, hc]
    simp only [ih (fun d hd => ha d (List.mem_cons_of_mem c hd))]
    simp

theorem drop_append_cons_len (a : List Char) (x : Char) (b : List Char) :
    (a ++ x :: b).drop (a.length + 1) = b := by
  have : a ++ x :: b = (a ++ [x]) ++ b := by simp
  rw [this, show a.length + 1 = (a ++ [x]).length by simp, List.drop_left]

theorem isPrefixOf_append_self (a t : List Char) : a.isPrefixOf (a ++ t) = true := by
  rw [ List.isPrefixOf_iff_prefix]
  exact List.prefix_append a t

/-! ## Lemmas about hex digits, UTF-8 bytes and URI encoding -/

theorem hexVal_hexDig {n : Nat} (h : n < 16) : hexVal? (hexDig n) = some n := by
  interval_cases n <;> decide

theorem hexDig_ne_pct {n : Nat} (h : n < 16) : ¬hexDig n = '%' := by
  interval_cases n <;> decide

theorem unreserved_hexDig {n : Nat} (h : n < 16) : unreservedChar (hexDig n) = true := by
  interval_cases n <;> decide

theorem hexDig_inj {m n : Nat} (hm : m < 16) (hn : n < 16)
    (h : hexDig m = hexDig n) : m = n := by
  have h1 := hexVal_hexDig hm
  have h2 := hexVal_hexDig hn
  rw [h, h2] at h1
  exact (Option.some.inj h1).symm

theorem char_scalar (c : Char) :
    c.toNat < 0xD800 ∨ (0xDFFF < c.toNat ∧ c.toNat < 0x110000) := c.valid

theorem char_toNat_lt (c : Char) : c.toNat < 0x110000 := by
  rcases char_scalar c with h | h
  · omega
  · omega

theorem char_eq_of_toNat {c : Char} {n : Nat} (h : c.toNat = n) :
    c = Char.ofNat n := by
  rw [← h, Char.ofNat_toNat]

theorem utf8Bytes_lt_256 {n b : Nat} (hn : n < 0x110000) (hb : b ∈ utf8Bytes n) :
    b < 256 := by
  by_cases h1 : n < 0x80
  · simp [utf8Bytes, h1] at hb
    omega
  · by_cases h2 : n < 0x800
    · simp [utf8Bytes, h1, h2] at hb
      rcases hb with rfl | rfl <;> omega
    · by_cases h3 : n < 0x10000
      · simp [utf8Bytes, h1, h2, h3] at hb
        rcases hb with rfl | rfl | rfl <;> omega
      · simp [utf8Bytes, h1, h2, h3] at hb
        rcases hb with rfl | rfl | rfl | rfl <;> omega

theorem utf8Bytes_ne_32 {n b : Nat} (hn : n ≠ 32) (hb : b ∈ utf8Bytes n) :
    b ≠ 32 := by
  by_cases h1 : n < 0x80
  · simp [utf8Bytes, h1] at hb
    omega
  · by_cases h2 : n < 0x800
    · simp [utf8Bytes, h1, h2] at hb
      rcases hb with rfl | rfl <;> omega
    · by_cases h3 : n < 0x10000
      · simp [utf8Bytes, h1, h2, h3] at hb
        rcases hb with rfl | rfl | rfl <;> omega
      · simp [utf8Bytes, h1, h2, h3] at hb
        rcases hb with rfl | rfl | rfl | rfl <;> omega

theorem unreserved_toNat {c : Char} (h : unreservedChar c = true) :
    (65 ≤ c.toNat ∧ c.toNat ≤ 90) ∨ (97 ≤ c.toNat ∧ c.toNat ≤ 122) ∨
      (48 ≤ c.toNat ∧ c.toNat ≤ 57) ∨
      c.toNat = 45 ∨ c.toNat = 95 ∨ c.toNat = 46 ∨ c.toNat = 33 ∨
      c.toNat = 126 ∨ c.toNat = 42 ∨ c.toNat = 39 ∨ c.toNat = 40 ∨
      c.toNat = 41 := by
  unfold unreservedChar at h
  simp at h
  tauto

theorem unreserved_ne_pct {c : Char} (h : unreservedChar c = true) : ¬c = '%' := by
  rintro rfl
  exact absurd h (by decide)

theorem unreserved_ne_plus {c : Char} (h : unreservedChar c = true) : ¬c = '+' := by
  rintro rfl
  exact absurd h (by decide)

/-- `encodeURIComponent` output followed by the `%20 → +` tweak: the chunk
produced for one input character. -/
def encTweak (c : Char) : List Char :=
  if c = ' ' then ['+'] else encChar c

/-- `encodeURIComponent` output after both name replacements of the codec
(`%20 → +` on encode, `+ → space` on decode): the chunk for one character. -/
def encSp (c : Char) : List Char :=
  if c = ' ' then [' '] else encChar c

/-- Token chunk recovered by `percentPhase` for one original character. -/
def chunkToks (c : Char) : List UriTok :=
  if unreservedChar c || c = ' ' then [UriTok.raw c]
  else (utf8Bytes c.toNat).map UriTok.byte

theorem go_cons_ne_pct {c : Char} (hc : ¬c = '%') (t : List Char) :
    replacePct20Go (c :: t) 0 = c :: replacePct20Go t 0 := by
  simp only [replacePct20Go]
  rw [if_neg (fun h => hc h.1)]

theorem go_escape_space (t : List Char) :
    replacePct20Go (escapeByte 32 ++ t) 0 = '+' :: replacePct20Go t 0 := rfl

theorem go_escape_ne20 {b : Nat} (hb : b < 256) (h32 : b ≠ 32) (t : List Char) :
    replacePct20Go (escapeByte b ++ t) 0 = escapeByte b ++ replacePct20Go t 0 := by
  have h1p : ¬hexDig (b / 16) = '%' := hexDig_ne_pct (by omega)
  have h2p : ¬hexDig (b % 16) = '%' := hexDig_ne_pct (by omega)
  have hcond : ¬('%' = '%' ∧
      List.take 2 (hexDig (b / 16) :: hexDig (b % 16) :: t) = ['2', '0']) := by
    rintro ⟨-, hEq⟩
    simp only [List.take_succ_cons, List.take_zero, List.cons.injEq, and_true] at hEq
    have e1 : b / 16 = 2 := hexDig_inj (by omega) (by omega) hEq.1
    have e2 : b % 16 = 0 := hexDig_inj (by omega) (by omega) hEq.2
    omega
  show replacePct20Go ('%' :: hexDig (b / 16) :: hexDig (b % 16) :: t) 0 = _
  simp only [replacePct20Go]
  rw [if_neg (show ¬(True ∧ List.take 2 (hexDig (b / 16) :: hexDig (b % 16) :: t) = ['2', '0']) from
      fun h => hcond ⟨rfl, h.2⟩),
    if_neg (fun h => h1p h.1), if_neg (fun h => h2p h.1)]
  rfl

theorem go_bytes {bytes : List Nat} (hb : ∀ b ∈ bytes, b < 256 ∧ b ≠ 32)
    (t : List Char) :
    replacePct20Go (bytes.flatMap escapeByte ++ t) 0 =
      bytes.flatMap escapeByte ++ replacePct20Go t 0 := by
  induction bytes with
  | nil => simp
  | cons b bs ih =>
    have hbb := hb b (List.mem_cons_self b bs)
    rw [List.flatMap_cons, List.append_assoc,
      go_escape_ne20 hbb.1 hbb.2,
      ih (fun x hx => hb x (List.mem_cons_of_mem b hx)),
      List.append_assoc]

theorem toNat_ne_32 {c : Char} (h : ¬c = ' ') : c.toNat ≠ 32 := by
  intro hn
  exact h (by rw [char_eq_of_toNat hn])

theorem replacePct20_encode (s : List Char) :
    replacePct20 (encodeURIComponent s) = s.flatMap encTweak := by
  unfold replacePct20
  induction s with
  | nil => rfl
  | cons c t ih =>
    rw [encodeURIComponent, List.flatMap_cons, List.flatMap_cons]
    show replacePct20Go (encChar c ++ t.flatMap encChar) 0 = _
    by_cases hsp : c = ' '
    · subst hsp
      rw [show encChar ' ' = escapeByte 32 from by decide, go_escape_space]
      rw [show encodeURIComponent t = t.flatMap encChar from rfl] at ih
      rw [ih]
      rfl
    · by_cases hun : unreservedChar c = true
      · rw [show encChar c = [c] from by rw [encChar, if_pos hun]]
        rw [List.singleton_append, go_cons_ne_pct (unreserved_ne_pct hun)]
        rw [show encodeURIComponent t = t.flatMap encChar from rfl] at ih
        rw [ih]
        rw [show encTweak c = [c] from by rw [encTweak, if_neg hsp, encChar, if_pos hun]]
        rfl
      · have henc : encChar c = (utf8Bytes c.toNat).flatMap escapeByte := by
          rw [encChar, if_neg hun]
        have hbnd : ∀ b ∈ utf8Bytes c.toNat, b < 256 ∧ b ≠ 32 := fun b hb =>
          ⟨utf8Bytes_lt_256 (char_toNat_lt c) hb,
           utf8Bytes_ne_32 (toNat_ne_32 hsp) hb⟩
        rw [henc, go_bytes hbnd]
        rw [show encodeURIComponent t = t.flatMap encChar from rfl] at ih
        rw [ih]
        rw [show encTweak c = (utf8Bytes c.toNat).flatMap escapeByte from by
          rw [encTweak, if_neg hsp, encChar, if_neg hun]]

theorem mem_escapeByte_ne_plus {b : Nat} (hb : b < 256) {x : Char}
    (hx : x ∈ escapeByte b) : ¬x = '+' := by
  have hx' : x = '%' ∨ x = hexDig (b / 16) ∨ x = hexDig (b % 16) := by
    simpa [escapeByte] using hx
  rcases hx' with rfl | rfl | rfl
  · decide
  · exact unreserved_ne_plus (unreserved_hexDig (show b / 16 < 16 by omega))
  · exact unreserved_ne_plus (unreserved_hexDig (show b % 16 < 16 by omega))

theorem mem_encChar_ne_plus {c x : Char} (hx : x ∈ encChar c) : ¬x = '+' := by
  rw [encChar] at hx
  split at hx
  · rename_i hun
    have : x = c := by simpa using hx
    subst this
    exact unreserved_ne_plus hun
  · obtain ⟨b, hb, hxb⟩ := List.mem_flatMap.mp hx
    exact mem_escapeByte_ne_plus (utf8Bytes_lt_256 (char_toNat_lt c) hb) hxb

theorem map_eq_self_of_mem {f : Char → Char} {l : List Char}
    (h : ∀ x ∈ l, f x = x) : l.map f = l := by
  induction l with
  | nil => rfl
  | cons a t ih =>
    rw [List.map_cons, h a (List.mem_cons_self a t),
      ih (fun x hx => h x (List.mem_cons_of_mem a hx))]

theorem plusToSpace_encTweak (s : List Char) :
    plusToSpace (s.flatMap encTweak) = s.flatMap encSp := by
  induction s with
  | nil => rfl
  | cons c t ih =>
    rw [List.flatMap_cons, List.flatMap_cons]
    unfold plusToSpace
    rw [List.map_append]
    unfold plusToSpace at ih
    rw [ih]
    by_cases hsp : c = ' '
    · subst hsp
      rfl
    · have h1 : encTweak c = encChar c := by rw [encTweak, if_neg hsp]
      have h2 : encSp c = encChar c := by rw [encSp, if_neg hsp]
      rw [h1, h2, map_eq_self_of_mem]
      intro x hx
      rw [if_neg (mem_encChar_ne_plus hx)]

theorem percentPhase_raw {c : Char} (hc : ¬c = '%') (t : List Char) :
    percentPhase (c :: t) = (percentPhase t).map (fun r => UriTok.raw c :: r) := by
  rw [percentPhase.eq_def]
  simp only
  rw [if_neg hc]

theorem percentPhase_escape {b : Nat} (hb : b < 256) (t : List Char) :
    percentPhase (escapeByte b ++ t) =
      (percentPhase t).map (fun r => UriTok.byte b :: r) := by
  show percentPhase ('%' :: hexDig (b / 16) :: hexDig (b % 16) :: t) = _
  simp only [percentPhase,
    hexVal_hexDig (show b / 16 < 16 by omega),
    hexVal_hexDig (show b % 16 < 16 by omega)]
  rw [show 16 * (b / 16) + b % 16 = b from by omega]
  rw [if_pos trivial]

theorem percentPhase_bytes {bytes : List Nat} (hb : ∀ b ∈ bytes, b < 256)
    (t : List Char) :
    percentPhase (bytes.flatMap escapeByte ++ t) =
      (percentPhase t).map (fun r => bytes.map UriTok.byte ++ r) := by
  induction bytes with
  | nil => simp
  | cons b bs ih =>
    rw [List.flatMap_cons, List.append_assoc,
      percentPhase_escape (hb b (List.mem_cons_self b bs)),
      ih (fun x hx => hb x (List.mem_cons_of_mem b hx)),
      Option.map_map]
    rfl

theorem percentPhase_chunks (s : List Char) :
    percentPhase (s.flatMap encSp) = some (s.flatMap chunkToks) := by
  induction s with
  | nil => rfl
  | cons c t ih =>
    rw [List.flatMap_cons, List.flatMap_cons]
    by_cases hsp : c = ' '
    · subst hsp
      rw [show encSp ' ' = [' '] from rfl, List.singleton_append,
        percentPhase_raw (by decide), ih]
      rfl
    · by_cases hun : unreservedChar c = true
      · rw [show encSp c = [c] from by rw [encSp, if_neg hsp, encChar, if_pos hun],
          List.singleton_append, percentPhase_raw (unreserved_ne_pct hun), ih,
          show chunkToks c = [UriTok.raw c] from by
            rw [chunkToks, if_pos (by rw [hun]; rfl)]]
        rfl
      · rw [show encSp c = (utf8Bytes c.toNat).flatMap escapeByte from by
            rw [encSp, if_neg hsp, encChar, if_neg hun],
          percentPhase_bytes (fun b hb => utf8Bytes_lt_256 (char_toNat_lt c) hb), ih,
          show chunkToks c = (utf8Bytes c.toNat).map UriTok.byte from by
            rw [chunkToks, if_neg (by simp [hun, hsp])]]
        rfl

theorem ofNat_cons_map_eq {E : Nat} (c : Char) (hE : E = c.toNat)
    (X : Option (List Char)) :
    X.map (fun r => Char.ofNat E :: r) = X.map (fun r => c :: r) := by
  subst hE
  rw [Char.ofNat_toNat]

theorem asmGo_raw (x y : Nat) (c : Char) (t : List UriTok) :
    utf8AsmGo 0 x y (UriTok.raw c :: t) =
      (utf8AsmGo 0 0 0 t).map (fun r => c :: r) := rfl

theorem asmGo_byte (x y b : Nat) (t : List UriTok) :
    utf8AsmGo 0 x y (UriTok.byte b :: t) =
      if b < 0x80 then (utf8AsmGo 0 0 0 t).map (fun r => Char.ofNat b :: r)
      else if b < 0xC0 then none
      else if b < 0xE0 then utf8AsmGo 1 (b - 0xC0) 0x80 t
      else if b < 0xF0 then utf8AsmGo 2 (b - 0xE0) 0x800 t
      else if b < 0xF8 then utf8AsmGo 3 (b - 0xF0) 0x10000 t
      else none := rfl

theorem asmGo_step1 (cp lo b : Nat) (t : List UriTok) :
    utf8AsmGo 1 cp lo (UriTok.byte b :: t) =
      if isContByte b then
        if lo ≤ cp * 64 + (b - 0x80) ∧ cp * 64 + (b - 0x80) ≤ 0x10FFFF ∧
            (cp * 64 + (b - 0x80) < 0xD800 ∨ 0xDFFF < cp * 64 + (b - 0x80)) then
          (utf8AsmGo 0 0 0 t).map (fun r => Char.ofNat (cp * 64 + (b - 0x80)) :: r)
        else none
      else none := rfl

theorem asmGo_step2 (cp lo b : Nat) (t : List UriTok) :
    utf8AsmGo 2 cp lo (UriTok.byte b :: t) =
      if isContByte b then utf8AsmGo 1 (cp * 64 + (b - 0x80)) lo t else none := rfl

theorem asmGo_step3 (cp lo b : Nat) (t : List UriTok) :
    utf8AsmGo 3 cp lo (UriTok.byte b :: t) =
      if isContByte b then utf8AsmGo 2 (cp * 64 + (b - 0x80)) lo t else none := rfl

theorem utf8Asm_raw (c : Char) (toks : List UriTok) :
    utf8Asm (UriTok.raw c :: toks) = (utf8Asm toks).map (fun r => c :: r) := rfl

theorem utf8Asm_bytes (c : Char) (toks : List UriTok) :
    utf8Asm ((utf8Bytes c.toNat).map UriTok.byte ++ toks) =
      (utf8Asm toks).map (fun r => c :: r) := by
  have hs := char_scalar c
  unfold utf8Asm
  by_cases h1 : c.toNat < 0x80
  · rw [show utf8Bytes c.toNat = [c.toNat] from by rw [utf8Bytes, if_pos h1],
      List.map_cons, List.map_nil, List.cons_append, List.nil_append, asmGo_byte]
    rw [if_pos h1]
    exact ofNat_cons_map_eq c rfl _
  · by_cases h2 : c.toNat < 0x800
    · rw [show utf8Bytes c.toNat = [0xC0 + c.toNat / 64, 0x80 + c.toNat % 64] from by
        rw [utf8Bytes, if_neg h1, if_pos h2],
        List.map_cons, List.map_cons, List.map_nil, List.cons_append,
        List.cons_append, List.nil_append]
      rw [asmGo_byte]
      rw [if_neg (by omega), if_neg (by omega), if_pos (by omega)]
      rw [asmGo_step1]
      split_ifs
      · exact ofNat_cons_map_eq c (by omega) _
      · exfalso
        simp only [isContByte, Bool.and_eq_true, decide_eq_true_eq, not_and,
          not_lt, not_le, not_or] at *
        omega
      · exfalso
        simp only [isContByte, Bool.and_eq_true, decide_eq_true_eq, not_and,
          not_lt, not_le, not_or] at *
        omega
    · by_cases h3 : c.toNat < 0x10000
      · rw [show utf8Bytes c.toNat =
            [0xE0 + c.toNat / 4096, 0x80 + c.toNat / 64 % 64, 0x80 + c.toNat % 64] from by
          rw [utf8Bytes, if_neg h1, if_neg h2, if_pos h3],
          List.map_cons, List.map_cons, List.map_cons, List.map_nil,
          List.cons_append, List.cons_append, List.cons_append, List.nil_append]
        rw [asmGo_byte]
        rw [if_neg (by omega), if_neg (by omega), if_neg (by omega), if_pos (by omega)]
        rw [asmGo_step2]
        rw [if_pos (show isContByte (0x80 + c.toNat / 64 % 64) = true by
          simp only [isContByte, Bool.and_eq_true, decide_eq_true_eq]
          omega)]
        rw [asmGo_step1]
        split_ifs
        · exact ofNat_cons_map_eq c (by omega) _
        · exfalso
          simp only [isContByte, Bool.and_eq_true, decide_eq_true_eq, not_and,
            not_lt, not_le, not_or] at *
          omega
        · exfalso
          simp only [isContByte, Bool.and_eq_true, decide_eq_true_eq, not_and,
            not_lt, not_le, not_or] at *
          omega
      · have h4 : c.toNat < 0x110000 := char_toNat_lt c
        rw [show utf8Bytes c.toNat =
            [0xF0 + c.toNat / 0x40000, 0x80 + c.toNat / 4096 % 64,
             0x80 + c.toNat / 64 % 64, 0x80 + c.toNat % 64] from by
          rw [utf8Bytes, if_neg h1, if_neg h2, if_neg h3],
          List.map_cons, List.map_cons, List.map_cons, List.map_cons, List.map_nil,
          List.cons_append, List.cons_append, List.cons_append, List.cons_append,
          List.nil_append]
        rw [asmGo_byte]
        rw [if_neg (by omega), if_neg (by omega), if_neg (by omega),
          if_neg (by omega), if_pos (by omega)]
        rw [asmGo_step3]
        rw [if_pos (show isContByte (0x80 + c.toNat / 4096 % 64) = true by
          simp only [isContByte, Bool.and_eq_true, decide_eq_true_eq]
          omega)]
        rw [asmGo_step2]
        rw [if_pos (show isContByte (0x80 + c.toNat / 64 % 64) = true by
          simp only [isContByte, Bool.and_eq_true, decide_eq_true_eq]
          omega)]
        rw [asmGo_step1]
        split_ifs
        · exact ofNat_cons_map_eq c (by omega) _
        · exfalso
          simp only [isContByte, Bool.and_eq_true, decide_eq_true_eq, not_and,
            not_lt, not_le, not_or] at *
          omega
        · exfalso
          simp only [isContByte, Bool.and_eq_true, decide_eq_true_eq, not_and,
            not_lt, not_le, not_or] at *
          omega

theorem utf8Asm_chunks (s : List Char) :
    utf8Asm (s.flatMap chunkToks) = some s := by
  induction s with
  | nil => rfl
  | cons c t ih =>
    rw [List.flatMap_cons]
    by_cases hr : (unreservedChar c || c = ' ') = true
    · rw [show chunkToks c = [UriTok.raw c] from by rw [chunkToks, if_pos hr],
        List.singleton_append, utf8Asm_raw, ih]
      rfl
    · rw [show chunkToks c = (utf8Bytes c.toNat).map UriTok.byte from by
        rw [chunkToks, if_neg hr], utf8Asm_bytes, ih]
      rfl

theorem decode_encode_name (s : List Char) :
    decodeURIComponent (plusToSpace (replacePct20 (encodeURIComponent s))) = some s := by
  rw [replacePct20_encode, plusToSpace_encTweak]
  unfold decodeURIComponent
  rw [percentPhase_chunks]
  show utf8Asm (s.flatMap chunkToks) = some s
  exact utf8Asm_chunks s

theorem mem_encName {s : List Char} {x : Char}
    (hx : x ∈ replacePct20 (encodeURIComponent s)) :
    x = '+' ∨ x = '%' ∨ unreservedChar x = true := by
  rw [replacePct20_encode] at hx
  obtain ⟨c, hc, hxc⟩ := List.mem_flatMap.mp hx
  rw [encTweak] at hxc
  split at hxc
  · left
    simpa using hxc
  · rw [encChar] at hxc
    split at hxc
    · rename_i hun
      have hxeq : x = c := by simpa using hxc
      subst hxeq
      exact Or.inr (Or.inr hun)
    · obtain ⟨b, hb, hxb⟩ := List.mem_flatMap.mp hxc
      have hb256 : b < 256 := utf8Bytes_lt_256 (char_toNat_lt c) hb
      have hx3 : x = '%' ∨ x = hexDig (b / 16) ∨ x = hexDig (b % 16) := by
        simpa [escapeByte] using hxb
      rcases hx3 with rfl | rfl | rfl
      · exact Or.inr (Or.inl rfl)
      · exact Or.inr (Or.inr (unreserved_hexDig (by omega)))
      · exact Or.inr (Or.inr (unreserved_hexDig (by omega)))

theorem encName_ne_gt {s : List Char} {x : Char}
    (hx : x ∈ replacePct20 (encodeURIComponent s)) : ¬x = '>' := by
  rcases mem_encName hx with rfl | rfl | h
  · decide
  · decide
  · rintro rfl
    exact absurd h (by decide)

theorem encName_ne_nl {s : List Char} {x : Char}
    (hx : x ∈ replacePct20 (encodeURIComponent s)) : ¬x = '\n' := by
  rcases mem_encName hx with rfl | rfl | h
  · decide
  · decide
  · rintro rfl
    exact absurd h (by decide)

theorem utf8Bytes_ne_nil (n : Nat) : utf8Bytes n ≠ [] := by
  unfold utf8Bytes
  split
  · simp
  · split
    · simp
    · split <;> simp

theorem encChar_ne_nil (c : Char) : encChar c ≠ [] := by
  rw [encChar]
  split
  · simp
  · cases h : utf8Bytes c.toNat with
    | nil => exact absurd h (utf8Bytes_ne_nil c.toNat)
    | cons b bs => simp [h, escapeByte]

theorem encTweak_ne_nil (c : Char) : encTweak c ≠ [] := by
  rw [encTweak]
  split
  · simp
  · exact encChar_ne_nil c

theorem encName_ne_nil {s : List Char} (hs : s ≠ []) :
    replacePct20 (encodeURIComponent s) ≠ [] := by
  rw [replacePct20_encode]
  cases s with
  | nil => exact absurd rfl hs
  | cons c t =>
    rw [List.flatMap_cons]
    intro h
    exact encTweak_ne_nil c (List.append_eq_nil.mp h).1

theorem asmGo_stepN (m cp lo b : Nat) (t : List UriTok) :
    utf8AsmGo (m + 2) cp lo (UriTok.byte b :: t) =
      if isContByte b then utf8AsmGo (m + 1) (cp * 64 + (b - 0x80)) lo t
      else none := rfl

theorem asmGo_none_nil (m cp lo : Nat) : utf8AsmGo (m + 1) cp lo [] = none := by
  cases m with
  | zero => rfl
  | succ m' => rfl

theorem asmGo_none_raw (m cp lo : Nat) (c : Char) (t : List UriTok) :
    utf8AsmGo (m + 1) cp lo (UriTok.raw c :: t) = none := by
  cases m with
  | zero => rfl
  | succ m' => rfl

theorem asmGo_succ_ne_nil {m cp lo : Nat} {t : List UriTok} {r : List Char}
    (h : utf8AsmGo (m + 1) cp lo t = some r) : r ≠ [] := by
  induction t generalizing m cp lo with
  | nil => rw [asmGo_none_nil] at h; cases h
  | cons tok rest ih =>
    cases tok with
    | raw c => rw [asmGo_none_raw] at h; cases h
    | byte b =>
      cases m with
      | zero =>
        rw [asmGo_step1] at h
        split at h
        · split at h
          · obtain ⟨r', hr', hr⟩ := Option.map_eq_some'.mp h
            rw [← hr]
            simp
          · cases h
        · cases h
      | succ m' =>
        rw [asmGo_stepN] at h
        split at h
        · exact ih h
        · cases h

theorem percentPhase_ne_nil {l : List Char} {toks : List UriTok}
    (h : percentPhase l = some toks) (hl : l ≠ []) : toks ≠ [] := by
  cases l with
  | nil => exact absurd rfl hl
  | cons c t =>
    rw [percentPhase.eq_def] at h
    simp only at h
    split at h
    · split at h
      · split at h
        · obtain ⟨r, hr, hrt⟩ := Option.map_eq_some'.mp h
          rw [← hrt]
          simp
        · cases h
      · cases h
    · obtain ⟨r, hr, hrt⟩ := Option.map_eq_some'.mp h
      rw [← hrt]
      simp

theorem utf8Asm_ne_nil {toks : List UriTok} {r : List Char}
    (h : utf8Asm toks = some r) (ht : toks ≠ []) : r ≠ [] := by
  cases toks with
  | nil => exact absurd rfl ht
  | cons tok rest =>
    cases tok with
    | raw c =>
      obtain ⟨r', hr', hrt⟩ := Option.map_eq_some'.mp h
      rw [← hrt]
      simp
    | byte b =>
      unfold utf8Asm at h
      rw [asmGo_byte] at h
      split at h
      · obtain ⟨r', hr', hrt⟩ := Option.map_eq_some'.mp h
        rw [← hrt]
        simp
      · split at h
        · cases h
        · split at h
          · exact asmGo_succ_ne_nil h
          · split at h
            · exact asmGo_succ_ne_nil h
            · split at h
              · exact asmGo_succ_ne_nil h
              · cases h

theorem decodeURIComponent_ne_nil {l r : List Char}
    (h : decodeURIComponent l = some r) (hl : l ≠ []) : r ≠ [] := by
  unfold decodeURIComponent at h
  obtain ⟨toks, htoks, hasm⟩ := Option.bind_eq_some.mp h
  exact utf8Asm_ne_nil hasm (percentPhase_ne_nil htoks hl)

theorem plusToSpace_ne_nil {l : List Char} (hl : l ≠ []) : plusToSpace l ≠ [] := by
  unfold plusToSpace
  simpa using hl

/-! ## Invariants of `parsePlaylistContent` -/

/-- The shape of every stored item path: non-blank, already trimmed, free of
`|` and of line terminators. -/
def goodPath (p : List Char) : Prop :=
  p ≠ [] ∧ trimLC p = p ∧ (∀ c ∈ p, ¬c = '|') ∧ (∀ c ∈ p, jsDotChar c = true)

theorem matchContainerAt_props {l : List Char} {nm rest : List Char}
    (h : matchContainerAt l = some (nm, rest)) :
    nm ≠ [] ∧ rest ≠ [] ∧ (∀ c ∈ rest, jsDotChar c = true) := by
  unfold matchContainerAt at h
  split at h
  · dsimp only at h
    split at h
    · rename_i hcond
      injection h with h'
      injection h' with h1 h2
      subst h1
      subst h2
      exact ⟨hcond.1, hcond.2.2, fun c hc => List.mem_takeWhile_imp hc⟩
    · cases h
  · cases h

theorem findContainerMatch_props {l : List Char} {nm rest : List Char}
    (h : findContainerMatch l = some (nm, rest)) :
    nm ≠ [] ∧ rest ≠ [] ∧ (∀ c ∈ rest, jsDotChar c = true) := by
  induction l with
  | nil => cases h
  | cons c t ih =>
    simp only [findContainerMatch] at h
    split at h
    · rename_i r hr
      injection h with h'
      subst h'
      exact matchContainerAt_props hr
    · exact ih h

theorem findContainerMatch_of_matchAt {l : List Char} {r : List Char × List Char}
    (h : matchContainerAt l = some r) : findContainerMatch l = some r := by
  cases l with
  | nil =>
    rw [show matchContainerAt ([] : List Char) = none from rfl] at h
    cases h
  | cons c t =>
    simp only [findContainerMatch]
    rw [h]

theorem parsePaths_good {rest : List Char}
    (hdot : ∀ c ∈ rest, jsDotChar c = true) :
    ∀ it ∈ parsePaths rest, goodPath it.path := by
  intro it hit
  unfold parsePaths at hit
  obtain ⟨p, hp, hpit⟩ := List.mem_filterMap.mp hit
  split at hpit
  · cases hpit
  · rename_i htr
    injection hpit with h'
    subst h'
    refine ⟨htr, trimLC_idem p, ?_, ?_⟩
    · intro c hc
      exact (splitCh_mem hp (mem_trimLC hc)).2
    · intro c hc
      exact hdot c (splitCh_mem hp (mem_trimLC hc)).1

theorem parseLines_good {ls : List (List Char)} {nm : List Char}
    {its : List TrackItem} {nm' : List Char} {its' : List TrackItem}
    (h : parseLines ls (nm, its) = some (nm', its'))
    (hg : ∀ it ∈ its, goodPath it.path) :
    ∀ it ∈ its', goodPath it.path := by
  induction ls generalizing nm its with
  | nil =>
    injection h with h'
    injection h' with h1 h2
    subst h2
    exact hg
  | cons l ls ih =>
    simp only [parseLines] at h
    split at h
    · exact ih h hg
    · split at h
      · split at h
        · exact ih h hg
        · rename_i rawName rawPaths hmatch
          split at h
          · cases h
          · rename_i nm'' hdec
            refine ih h ?_
            intro it hit
            rcases List.mem_append.mp hit with h1 | h2
            · exact hg it h1
            · exact parsePaths_good (findContainerMatch_props hmatch).2.2 it h2
      · exact ih h hg

theorem parseLines_name {ls : List (List Char)} {nm : List Char}
    {its : List TrackItem} {nm' : List Char} {its' : List TrackItem}
    (h : parseLines ls (nm, its) = some (nm', its')) :
    (nm' = nm ∧ its' = its) ∨ nm' ≠ [] := by
  induction ls generalizing nm its with
  | nil =>
    injection h with h'
    injection h' with h1 h2
    exact Or.inl ⟨h1.symm, h2.symm⟩
  | cons l ls ih =>
    simp only [parseLines] at h
    split at h
    · exact ih h
    · split at h
      · split at h
        · exact ih h
        · rename_i rawName rawPaths hmatch
          split at h
          · cases h
          · rename_i nm'' hdec
            have hne : nm'' ≠ [] :=
              decodeURIComponent_ne_nil hdec
                (plusToSpace_ne_nil (findContainerMatch_props hmatch).1)
            rcases ih h with ⟨h1, h2⟩ | h1
            · exact Or.inr (h1 ▸ hne)
            · exact Or.inr h1
      · exact ih h

theorem parse_invariant {raw : List Char} {d : PlaylistDoc}
    (h : parsePlaylistContent raw = some d) :
    (∀ it ∈ d.items, goodPath it.path) ∧ (d.items ≠ [] → d.containerName ≠ []) := by
  unfold parsePlaylistContent at h
  obtain ⟨st, hst, hd⟩ := Option.map_eq_some'.mp h
  obtain ⟨nm', its'⟩ := st
  subst hd
  constructor
  · exact parseLines_good hst (by simp)
  · intro hne
    rcases parseLines_name hst with ⟨h1, h2⟩ | h1
    · exact absurd h2 hne
    · exact h1

/-! ## Parsing the generated output -/

theorem matchAt_of_shape {EN P : List Char} (hENne : EN ≠ [])
    (hENgt : ∀ c ∈ EN, ¬c = '>') (hPne : P ≠ [])
    (hPdot : ∀ c ∈ P, jsDotChar c = true) :
    matchContainerAt ("Container=<".data ++ (EN ++ ('>' :: P))) = some (EN, P) := by
  unfold matchContainerAt
  rw [if_pos (isPrefixOf_append_self ("Container=<".data) (EN ++ ('>' :: P)))]
  dsimp only
  rw [show (11 : Nat) = ("Container=<".data).length from by decide, List.drop_left]
  rw [takeWhile_append_stop
    (fun c hc => by simpa using hENgt c hc) (by decide) P]
  rw [drop_append_cons_len EN '>' P, List.takeWhile_eq_self_iff.mpr hPdot]
  rw [if_pos ⟨hENne, by simp, hPne⟩]

theorem mem_append_cons_segment {EN P : List Char} {c : Char}
    (hc : c ∈ "Container=<".data ++ (EN ++ ('>' :: P)))
    (hEN : ∀ x ∈ EN, ¬x = '\n') (hP : ∀ x ∈ P, jsDotChar x = true) :
    ¬c = '\n' := by
  rcases List.mem_append.mp hc with h1 | h2
  · intro h
    subst h
    revert h1
    decide
  · rcases List.mem_append.mp h2 with h3 | h4
    · exact hEN c h3
    · rcases List.mem_cons.mp h4 with rfl | h5
      · decide
      · intro h
        subst h
        have := hP _ h5
        revert this
        decide

theorem trimLC_container_ne_nil {X : List Char} :
    trimLC ("Container=<".data ++ X) ≠ [] := by
  apply trimLC_ne_nil (c := 'C')
  · rw [show ("Container=<").data ++ X = 'C' :: ("ontainer=<".data ++ X) from rfl]
    exact List.mem_cons_self 'C' _
  · decide

theorem parse_generate_shape {EN P : List Char} (hENne : EN ≠ [])
    (hENgt : ∀ c ∈ EN, ¬c = '>') (hENnl : ∀ c ∈ EN, ¬c = '\n')
    (hPne : P ≠ []) (hPdot : ∀ c ∈ P, jsDotChar c = true) :
    parsePlaylistContent
        (("#EXTM3U\nContainer=<".data ++ EN) ++ ('>' :: P) ++ ['\n']) =
      (decodeURIComponent (plusToSpace EN)).map
        (fun n => ⟨n, parsePaths P⟩) := by
  have hshape : ("#EXTM3U\nContainer=<".data ++ EN) ++ ('>' :: P) ++ ['\n'] =
      "#EXTM3U".data ++ '\n' ::
        (("Container=<".data ++ (EN ++ ('>' :: P))) ++ '\n' :: []) := by
    rw [show ("#EXTM3U\nContainer=<").data =
      "#EXTM3U".data ++ '\n' :: "Container=<".data from by decide]
    simp [List.append_assoc]
  rw [hshape]
  unfold parsePlaylistContent
  rw [splitCh_append_cons (by decide) _,
    splitCh_append_cons
      (fun c hc => mem_append_cons_segment hc hENnl hPdot) []]
  rw [show splitCh '\n' [] = [[]] from rfl]
  rw [List.filter_cons, List.filter_cons, List.filter_cons, List.filter_nil]
  rw [if_pos (by decide)]
  rw [if_pos (show (!(trimLC ("Container=<".data ++ (EN ++ ('>' :: P)))).isEmpty) = true from by
    have h := trimLC_container_ne_nil (X := EN ++ ('>' :: P))
    simpa using h)]
  rw [if_neg (by decide)]
  simp only [parseLines]
  rw [if_pos (by decide)]
  rw [if_neg (show ¬((("#EXTM3U".data).isPrefixOf
      ("Container=<".data ++ (EN ++ ('>' :: P)))) = true) from by
    rw [show (("#EXTM3U".data).isPrefixOf
      ("Container=<".data ++ (EN ++ ('>' :: P)))) = false from rfl]
    exact Bool.false_ne_true)]
  rw [if_pos (show ((("Container=".data).isPrefixOf
      ("Container=<".data ++ (EN ++ ('>' :: P))))) = true from by
    rw [show ("Container=<").data ++ (EN ++ ('>' :: P)) =
      "Container=".data ++ ('<' :: (EN ++ ('>' :: P))) from rfl]
    exact isPrefixOf_append_self _ _)]
  rw [findContainerMatch_of_matchAt (matchAt_of_shape hENne hENgt hPne hPdot)]
  dsimp only
  cases hdec : decodeURIComponent (plusToSpace EN) with
  | none => rfl
  | some nm' => simp

theorem parsePaths_list {paths : List (List Char)}
    (h : ∀ p ∈ paths, p ≠ [] ∧ trimLC p = p) :
    paths.filterMap
        (fun p => if trimLC p = [] then none else some (mkTrackItem p)) =
      paths.map mkTrackItem := by
  induction paths with
  | nil => rfl
  | cons p ps ih =>
    have hp := h p (List.mem_cons_self p ps)
    have hf : (if trimLC p = [] then none else some (mkTrackItem p)) =
        some (mkTrackItem p) := by
      rw [if_neg (by rw [hp.2]; exact hp.1)]
    rw [List.filterMap_cons, hf, List.map_cons,
      ih (fun q hq => h q (List.mem_cons_of_mem p hq))]

theorem parsePaths_joinSep {paths : List (List Char)} (hne : paths ≠ [])
    (h : ∀ p ∈ paths, p ≠ [] ∧ trimLC p = p ∧ ∀ c ∈ p, ¬c = '|') :
    parsePaths (joinSep ['|'] paths) = paths.map mkTrackItem := by
  unfold parsePaths
  rw [splitCh_joinSep hne (fun p hp c hc => (h p hp).2.2 c hc)]
  exact parsePaths_list (fun p hp => ⟨(h p hp).1, (h p hp).2.1⟩)

/-- Claim C1: for every document produced by `decode` with non-empty items,
`decode(encode(doc))` is structurally equal to it: same container name and
same ordered list of paths. -/
theorem c1_round_trip (raw : List Char) (d : PlaylistDoc)
    (hparse : parsePlaylistContent raw = some d) (hne : d.items ≠ []) :
    ∃ d', parsePlaylistContent (generatePlaylistContent d) = some d' ∧
      d'.containerName = d.containerName ∧
      d'.items.map (fun it => it.path) = d.items.map (fun it => it.path) := by
  obtain ⟨hgood, hname⟩ := parse_invariant hparse
  have hnm : d.containerName ≠ [] := hname hne
  have hPne : joinSep ['|'] (d.items.map (fun it => it.path)) ≠ [] := by
    cases hd : d.items with
    | nil => exact absurd hd hne
    | cons it its =>
      rw [List.map_cons]
      exact joinSep_ne_nil (hgood it (by rw [hd]; exact List.mem_cons_self it its)).1 _
  have hPdot : ∀ c ∈ joinSep ['|'] (d.items.map (fun it => it.path)),
      jsDotChar c = true := by
    intro c hc
    rcases mem_joinSep hc with hs | ⟨p, hp, hcp⟩
    · have : c = '|' := by simpa using hs
      subst this
      decide
    · obtain ⟨it, hit, hpit⟩ := List.mem_map.mp hp
      subst hpit
      exact (hgood it hit).2.2.2 c hcp
  rw [generatePlaylistContent, if_neg hne, if_neg hnm]
  rw [parse_generate_shape (encName_ne_nil hnm)
    (fun c hc => encName_ne_gt hc) (fun c hc => encName_ne_nl hc) hPne hPdot]
  rw [decode_encode_name d.containerName]
  simp only [Option.map_some']
  refine ⟨⟨d.containerName, parsePaths (joinSep ['|'] (d.items.map (fun it => it.path)))⟩,
    rfl, rfl, ?_⟩
  rw [parsePaths_joinSep
    (by intro h; rw [h] at hPne; exact hPne rfl)
    (by
      intro p hp
      obtain ⟨it, hit, hpit⟩ := List.mem_map.mp hp
      subst hpit
      exact ⟨(hgood it hit).1, (hgood it hit).2.1, (hgood it hit).2.2.1⟩)]
  rw [List.map_map, List.map_map]
  refine List.map_congr_left ?_
  intro it hit
  show trimLC it.path = it.path
  exact (hgood it hit).2.1

/-! ## Claims C2, C4, C5, C9 -/

theorem parseLines_isSome {ls : List (List Char)}
    (hs : ∀ l ∈ ls, lineSafe l = true) (st : List Char × List TrackItem) :
    (parseLines ls st).isSome = true := by
  induction ls generalizing st with
  | nil => rfl
  | cons l ls ih =>
    obtain ⟨nm, its⟩ := st
    have hl := hs l (List.mem_cons_self l ls)
    have hrest : ∀ l' ∈ ls, lineSafe l' = true := fun l' hl' =>
      hs l' (List.mem_cons_of_mem l hl')
    simp only [parseLines]
    split
    · exact ih hrest _
    · split
      · rename_i hpre1 hpre2
        rw [lineSafe, if_pos hpre2] at hl
        split
        · exact ih hrest _
        · rename_i rawName rawPaths hmatch
          rw [hmatch] at hl
          dsimp only at hl
          split
          · rename_i hdec
            rw [hdec] at hl
            simp at hl
          · exact ih hrest _
      · exact ih hrest _

/-- Claim C2 counterexample: `decode` does raise on this input — the matched
container name is `%`, and `decodeURIComponent("%")` throws a `URIError`
(modelled by `none`). -/
theorem c2_counterexample :
    parsePlaylistContent ("#EXTM3U\nContainer=<%>x\n".data) = none := by
  decide

/-- Claim C2 (amended): `decode` never raises except when a matched container
line's name contains malformed percent-encoding (then `decodeURIComponent`
throws); in particular `decode("garbage\n")` yields the empty document
without raising. -/
theorem c2_decode_total (content : List Char)
    (hsafe : ∀ l ∈ (splitCh '\n' content).filter (fun l => !(trimLC l).isEmpty),
      lineSafe l = true) :
    (parsePlaylistContent content).isSome = true ∧
      parsePlaylistContent ("garbage\n".data) = some ⟨[], []⟩ := by
  constructor
  · have h := parseLines_isSome hsafe ([], [])
    unfold parsePlaylistContent
    cases hp : parseLines
        ((splitCh '\n' content).filter (fun l => !(trimLC l).isEmpty)) ([], []) with
    | none => rw [hp] at h; simp at h
    | some st => rfl
  · decide

theorem c2_decode_total_witness :
    (parsePlaylistContent ("#EXTM3U\nContainer=<Hi>a\n".data)).isSome = true ∧
      parsePlaylistContent ("garbage\n".data) = some ⟨[], []⟩ :=
  c2_decode_total ("#EXTM3U\nContainer=<Hi>a\n".data) (by decide)

/-- Claim C9: decode recovers the container name by replacing `+` with a
space and percent-decoding the remainder; the first conjunct is the
spec's concrete instance, the second also exercises a real percent-escape
(`%2B` decodes to a literal `+`). -/
theorem c9_name_decode :
    parsePlaylistContent
        ("#EXTM3U\nContainer=<Morning+Show>C:\\a.mp3|C:\\b.wav\n".data) =
      some ⟨"Morning Show".data,
        [⟨"C:\\a.mp3".data, "a".data⟩, ⟨"C:\\b.wav".data, "b".data⟩]⟩ ∧
    parsePlaylistContent ("#EXTM3U\nContainer=<A%2BB+C>x\n".data) =
      some ⟨"A+B C".data, [⟨"x".data, "x".data⟩]⟩ := by
  exact ⟨by decide, by decide⟩

/-- Claim C5: encoding a document with an empty items list yields exactly the
format line plus newline, whatever the container name; in particular for
container name `X`. -/
theorem c5_empty_items_encode (name : List Char) :
    generatePlaylistContent ⟨name, []⟩ = "#EXTM3U\n".data ∧
      generatePlaylistContent ⟨"X".data, []⟩ = "#EXTM3U\n".data := by
  constructor
  · rw [generatePlaylistContent, if_pos rfl]
  · rw [generatePlaylistContent, if_pos rfl]

/-- Claim C4: with both indices in range, the drop handler removes the item
at `dragIndex` and reinserts it at `dropIndex` in the remaining sequence
(move semantics, not swap). -/
theorem c4_reorder (l : List TrackItem) (i j : Nat) (hi : i < l.length)
    (hj : j < l.length) :
    handleDrop l i j =
      (l.eraseIdx i).take j ++ l.get ⟨i, hi⟩ :: (l.eraseIdx i).drop j := by
  unfold handleDrop
  by_cases hij : i = j
  · subst hij
    rw [if_pos rfl, List.eraseIdx_eq_take_drop_succ]
    rw [List.take_left' (by rw [List.length_take]; omega),
      List.drop_left' (by rw [List.length_take]; omega)]
    conv_lhs => rw [← List.take_append_drop i l, List.drop_eq_getElem_cons hi]
    rw [List.get_eq_getElem]
  · rw [if_neg hij, List.getElem?_eq_getElem hi]
    rw [List.get_eq_getElem]

theorem c4_reorder_witness :
    handleDrop [⟨"A".data, "A".data⟩, ⟨"B".data, "B".data⟩, ⟨"C".data, "C".data⟩]
        0 2 =
      [⟨"B".data, "B".data⟩, ⟨"C".data, "C".data⟩, ⟨"A".data, "A".data⟩] := by
  have h := c4_reorder
    [⟨"A".data, "A".data⟩, ⟨"B".data, "B".data⟩, ⟨"C".data, "C".data⟩]
    0 2 (by decide) (by decide)
  rw [h]
  decide

/-! ## Claims C6, C7, C8, C10 -/

/-- Claim C6: adding is idempotent on the resolved path — if an item with the
same resolved path is present the add is a no-op, otherwise the track is
appended at the end; a second add of the same file never changes the list. -/
theorem c6_idempotent_add (items : List TrackItem) (file : GoogleDriveFile)
    (directory : Option AudioDirectory) :
    addFileToPlaylist true (addFileToPlaylist true items file directory)
        file directory =
      addFileToPlaylist true items file directory ∧
    (items.any (fun it => it.path = buildPathForFile file directory) = true →
      addFileToPlaylist true items file directory = items) ∧
    (items.any (fun it => it.path = buildPathForFile file directory) = false →
      addFileToPlaylist true items file directory =
        items ++ [⟨buildPathForFile file directory,
          removeFileExtension file.name⟩]) := by
  unfold addFileToPlaylist
  simp only [Bool.not_true, Bool.false_eq_true, if_false]
  by_cases h : items.any (fun it => it.path = buildPathForFile file directory) = true
  · rw [if_pos h, if_pos h]
    exact ⟨rfl, fun _ => rfl, fun hfalse => absurd h (by rw [hfalse]; simp)⟩
  · rw [if_neg h]
    have happ : ((items ++ [(⟨buildPathForFile file directory,
        removeFileExtension file.name⟩ : TrackItem)]).any
          (fun it => it.path = buildPathForFile file directory)) = true := by
      rw [List.any_append]
      simp
    rw [if_pos happ]
    exact ⟨rfl, fun htrue => absurd htrue h, fun _ => rfl⟩

theorem c6_idempotent_add_witness :
    addFileToPlaylist true
        (addFileToPlaylist true [] ⟨"song.mp3".data⟩ none) ⟨"song.mp3".data⟩ none =
      addFileToPlaylist true [] ⟨"song.mp3".data⟩ none ∧
    addFileToPlaylist true [] ⟨"song.mp3".data⟩ none =
      [] ++ [⟨buildPathForFile ⟨"song.mp3".data⟩ none,
        removeFileExtension ("song.mp3".data)⟩] := by
  have h := c6_idempotent_add [] ⟨"song.mp3".data⟩ none
  exact ⟨h.1, h.2.2 (by decide)⟩

/-- Claim C7: when the remote update fails, the in-memory document (container
name and items) and the stored original text are unchanged, the outcome is
distinguishable from a successful save, and for a non-authentication failure
the error message is surfaced in `saveError`. -/
theorem c7_save_failure (s : SessionState) (m : List Char) :
    (savePlaylist true s (SaveResult.err m)).1.playlistItems = s.playlistItems ∧
    (savePlaylist true s (SaveResult.err m)).1.containerName = s.containerName ∧
    (savePlaylist true s (SaveResult.err m)).1.originalContent = s.originalContent ∧
    ¬(savePlaylist true s (SaveResult.err m)).2 = SaveSignal.saved ∧
    (isAuthErrorMsg m = false →
      (savePlaylist true s (SaveResult.err m)).1.saveError = some m) := by
  unfold savePlaylist
  by_cases h : isAuthErrorMsg m = true
  · simp [h]
  · simp [h]

theorem c7_save_failure_witness :
    (savePlaylist true
        ⟨"#EXTM3U\n".data, "N".data, [⟨"a".data, "a".data⟩], none, true⟩
        (SaveResult.err ("boom".data))).1.playlistItems =
      [⟨"a".data, "a".data⟩] ∧
    (savePlaylist true
        ⟨"#EXTM3U\n".data, "N".data, [⟨"a".data, "a".data⟩], none, true⟩
        (SaveResult.err ("boom".data))).1.saveError = some ("boom".data) := by
  have h := c7_save_failure
    ⟨"#EXTM3U\n".data, "N".data, [⟨"a".data, "a".data⟩], none, true⟩
    ("boom".data)
  exact ⟨h.1, h.2.2.2.2 (by decide)⟩

theorem applyEditOp_original (s : SessionState) (op : EditOp) :
    (applyEditOp s op).originalContent = s.originalContent := by
  cases op <;> rfl

theorem applyEditOps_original (s : SessionState) (ops : List EditOp) :
    (applyEditOps s ops).originalContent = s.originalContent := by
  induction ops generalizing s with
  | nil => rfl
  | cons op ops ih =>
    show (applyEditOps (applyEditOp s op) ops).originalContent = _
    rw [ih, applyEditOp_original]

/-- Claim C8: after `Load(raw)` and any sequence of add/remove/reorder edits,
`Reset()` re-decodes the stored original text, so the document equals
`decode(raw)` (whenever that decode succeeds, as it did during the load). -/
theorem c8_reset (s : SessionState) (raw : List Char) (ops : List EditOp)
    (d : PlaylistDoc) (hparse : parsePlaylistContent raw = some d) :
    (resetPlaylist (applyEditOps (loadPlaylistContent s raw) ops)).containerName =
      d.containerName ∧
    (resetPlaylist (applyEditOps (loadPlaylistContent s raw) ops)).playlistItems =
      d.items := by
  have horig : (applyEditOps (loadPlaylistContent s raw) ops).originalContent = raw := by
    rw [applyEditOps_original]
    unfold loadPlaylistContent
    rw [hparse]
  unfold resetPlaylist
  rw [horig, hparse]
  exact ⟨rfl, rfl⟩

theorem c8_reset_witness :
    (resetPlaylist (applyEditOps
        (loadPlaylistContent ⟨"#EXTM3U\n".data, [], [], none, false⟩
          ("#EXTM3U\nContainer=<N>a|b\n".data))
        [EditOp.addFile ⟨"x.mp3".data⟩ none,
         EditOp.removeFile ⟨"x.mp3".data⟩ none,
         EditOp.reorder 0 1])).playlistItems =
      [⟨"a".data, "a".data⟩, ⟨"b".data, "b".data⟩] := by
  have h := c8_reset ⟨"#EXTM3U\n".data, [], [], none, false⟩
    ("#EXTM3U\nContainer=<N>a|b\n".data)
    [EditOp.addFile ⟨"x.mp3".data⟩ none,
     EditOp.removeFile ⟨"x.mp3".data⟩ none,
     EditOp.reorder 0 1]
    ⟨"N".data, [⟨"a".data, "a".data⟩, ⟨"b".data, "b".data⟩]⟩ (by decide)
  exact h.2

/-- Claim C10: removing a file deletes every item whose path equals the
resolved path — duplicates included — keeps every other item, and is a no-op
when no item has that path. -/
theorem c10_remove_all (items : List TrackItem) (file : GoogleDriveFile)
    (directory : Option AudioDirectory) :
    (∀ it ∈ removeFileFromPlaylist items file directory,
      ¬it.path = buildPathForFile file directory) ∧
    ((∀ it ∈ items, ¬it.path = buildPathForFile file directory) →
      removeFileFromPlaylist items file directory = items) ∧
    (∀ it ∈ items, ¬it.path = buildPathForFile file directory →
      it ∈ removeFileFromPlaylist items file directory) := by
  unfold removeFileFromPlaylist
  refine ⟨?_, ?_, ?_⟩
  · intro it hit
    have h := List.of_mem_filter hit
    simpa using h
  · intro h
    apply List.filter_eq_self.mpr
    intro it hit
    simpa using h it hit
  · intro it hit hne
    exact List.mem_filter.mpr ⟨hit, by simpa using hne⟩

theorem c10_remove_all_witness :
    removeFileFromPlaylist
        [⟨"T:\\My Drive\\Audio\\x.mp3".data, "x".data⟩,
         ⟨"other".data, "other".data⟩,
         ⟨"T:\\My Drive\\Audio\\x.mp3".data, "x".data⟩]
        ⟨"x.mp3".data⟩ none =
      [⟨"other".data, "other".data⟩] ∧
    (∀ it ∈ removeFileFromPlaylist
        [⟨"T:\\My Drive\\Audio\\x.mp3".data, "x".data⟩,
         ⟨"other".data, "other".data⟩,
         ⟨"T:\\My Drive\\Audio\\x.mp3".data, "x".data⟩]
        ⟨"x.mp3".data⟩ none,
      ¬it.path = buildPathForFile ⟨"x.mp3".data⟩ none) := by
  refine ⟨by decide, ?_⟩
  exact (c10_remove_all
    [⟨"T:\\My Drive\\Audio\\x.mp3".data, "x".data⟩,
     ⟨"other".data, "other".data⟩,
     ⟨"T:\\My Drive\\Audio\\x.mp3".data, "x".data⟩]
    ⟨"x.mp3".data⟩ none).1

/-! ## Claim C3 -/

theorem removeExt_strip {u v : List Char} (hv : v ≠ [])
    (hd : ∀ c ∈ v, ¬c = '.') (hs : ∀ c ∈ v, ¬c = '/') :
    removeFileExtension (u ++ '.' :: v) = u := by
  have hr : (u ++ '.' :: v).reverse = v.reverse ++ '.' :: u.reverse := by
    rw [List.reverse_append, List.reverse_cons]
    simp [List.append_assoc]
  unfold removeFileExtension
  dsimp only
  rw [hr]
  rw [takeWhile_append_stop
    (fun c hc => by
      have hcv : c ∈ v := List.mem_reverse.mp hc
      simp [hd c hcv, hs c hcv])
    (by decide) u.reverse]
  rw [List.drop_left, drop_append_cons_len]
  rw [if_pos ⟨by simpa using hv, rfl⟩, List.reverse_reverse]

theorem removeExt_no_strip {l : List Char}
    (h : ∀ u v, l = u ++ '.' :: v → v = [] ∨ (∃ c ∈ v, c = '.' ∨ c = '/')) :
    removeFileExtension l = l := by
  unfold removeFileExtension
  dsimp only
  split
  · rename_i hcond
    exfalso
    obtain ⟨hne, hhd⟩ := hcond
    obtain ⟨rest0, hrest0⟩ :=
      List.takeWhile_prefix (l := l.reverse) (fun c => !(c = '.' || c = '/'))
    set E := l.reverse.takeWhile (fun c => !(c = '.' || c = '/')) with hE
    have hdropE : l.reverse.drop E.length = rest0 := by
      rw [← hrest0, List.drop_left]
    rw [hdropE] at hhd
    cases rest0 with
    | nil => simp at hhd
    | cons c0 rest =>
      have hc0 : c0 = '.' := by simpa using hhd
      subst hc0
      have hl : l = rest.reverse ++ '.' :: E.reverse := by
        have hrev := congrArg List.reverse hrest0
        rw [List.reverse_reverse] at hrev
        rw [← hrev, List.reverse_append, List.reverse_cons]
        simp [List.append_assoc]
      rcases h _ _ hl with hv | ⟨c, hc, hcd⟩
      · rw [List.reverse_eq_nil_iff] at hv
        exact hne hv
      · have hcE : c ∈ E := List.mem_reverse.mp hc
        have hp := List.mem_takeWhile_imp (hE ▸ hcE)
        rcases hcd with rfl | rfl <;> simp at hp
  · rfl

/-- Claim C3 counterexample: the code strips a leading-dot-only filename to
the empty string — for the path `C:\.hidden` the stored `displayName` is
`""`, while the specified rule keeps `.hidden` (the extension-strip is said
to exclude a leading-dot-only filename). -/
theorem c3_counterexample :
    parsePlaylistContent ("#EXTM3U\nContainer=<N>C:\\.hidden\n".data) =
      some ⟨"N".data, [⟨"C:\\.hidden".data, []⟩]⟩ ∧
    spec_displayName ("C:\\.hidden".data) = ".hidden".data ∧
    ¬(".hidden".data : List Char) = ([] : List Char) := by
  exact ⟨by decide, by decide, by decide⟩

/-- Claim C3 (amended): the display name is the candidate segment — the last
backslash token if non-empty, else the last slash token if non-empty, else
the path itself — with a trailing extension stripped exactly when the
segment ends in a final `.` followed by a non-empty run containing no `.`
and no `/`; leading-dot-only filenames are not excluded, so `.hidden` strips
to the empty string. -/
theorem c3_display_name :
    (∀ p u v, fullFilenameOf p = u ++ '.' :: v → v ≠ [] →
      (∀ c ∈ v, ¬c = '.') → (∀ c ∈ v, ¬c = '/') →
      (mkTrackItem p).filename = u) ∧
    (∀ p, (∀ u v, fullFilenameOf p = u ++ '.' :: v →
        v = [] ∨ (∃ c ∈ v, c = '.' ∨ c = '/')) →
      (mkTrackItem p).filename = fullFilenameOf p) := by
  constructor
  · intro p u v hdec hv hd hs
    show removeFileExtension (fullFilenameOf p) = u
    rw [hdec]
    exact removeExt_strip hv hd hs
  · intro p h
    show removeFileExtension (fullFilenameOf p) = fullFilenameOf p
    exact removeExt_no_strip h

theorem c3_display_name_witness :
    (mkTrackItem ("C:\\song.mp3".data)).filename = "song".data ∧
    (mkTrackItem (" C:\\.hidden".data)).filename = [] :=
  ⟨c3_display_name.1 ("C:\\song.mp3".data) ("song".data) ("mp3".data)
      (by decide) (by decide) (by decide) (by decide),
   c3_display_name.1 (" C:\\.hidden".data) ([] : List Char) ("hidden".data)
      (by decide) (by decide) (by decide) (by decide)⟩

theorem c1_round_trip_witness :
    ∃ d', parsePlaylistContent (generatePlaylistContent
        ⟨"Morning Show".data,
          [⟨"C:\\a.mp3".data, "a".data⟩, ⟨"C:\\b.wav".data, "b".data⟩]⟩) =
        some d' ∧
      d'.containerName = "Morning Show".data ∧
      d'.items.map (fun it => it.path) =
        ["C:\\a.mp3".data, "C:\\b.wav".data] := by
  have h := c1_round_trip
    ("#EXTM3U\nContainer=<Morning+Show>C:\\a.mp3|C:\\b.wav\n".data)
    ⟨"Morning Show".data,
      [⟨"C:\\a.mp3".data, "a".data⟩, ⟨"C:\\b.wav".data, "b".data⟩]⟩
    (by decide) (by decide)
  obtain ⟨d', h1, h2, h3⟩ := h
  exact ⟨d', h1, h2, by rw [h3]; decide⟩
